import Mathlib

/-
  Verification development for the face-recognition Flask demo
  (src/face_recognition_demo.py).

  The definitions below are shallow embeddings of the parts of the program
  that the claims are about:

  * the label normalization performed at the end of main
    (lines 304-306: re.sub over digits, re.sub of the two-character
    pattern dot-percent, str.strip),
  * the majority vote over the normalized labels
    (line 307: max over set of persons with key persons.count),
  * the main frame loop (lines 262-301): frame reads, the startup crop
    validation (lines 256-259), the per-iteration truthiness test of the
    numpy crop array (line 269), processing failures, and the
    process-global list persons_detected (line 48, appended to at
    line 216 inside draw_detections),
  * the argparse store_true semantics for no_show and allow_grow
    (lines 70, 84) and the gallery-growth guard in FrameProcessor.process
    (lines 138, 185).
-/

namespace FaceRecDemo

/-- An ASCII digit, matching the Python regex character class 0-9. -/
def isAsciiDigit (c : Char) : Bool := '0' ≤ c && c ≤ '9'

/-- Embedding of the list comprehension re.sub of the class 0-9 by the
empty string (line 304): every ASCII digit is removed. -/
def stripDigits (l : List Char) : List Char := l.filter (fun c => !(isAsciiDigit c))

/-- Embedding of re.sub of the pattern dot-percent by the empty string
(line 305).  The regex dot matches any character except a newline, so the
substitution removes, scanning left to right over non-overlapping matches,
every two-character block whose second character is '%' and whose first
character is not a newline. -/
def subDotPct : List Char → List Char
  | [] => []
  | [c] => [c]
  | c₁ :: c₂ :: rest =>
    if c₂ = '%' && !(c₁ = '\n') then subDotPct rest
    else c₁ :: subDotPct (c₂ :: rest)

/-- The ASCII whitespace characters removed by the Python str.strip method. -/
def isPySpace (c : Char) : Bool :=
  c = ' ' || c = '\t' || c = '\n' || c = '\r' || c = '\x0b' || c = '\x0c'

/-- Embedding of str.strip (line 306): drop leading and trailing
whitespace. -/
def pyStrip (l : List Char) : List Char :=
  ((l.dropWhile isPySpace).reverse.dropWhile isPySpace).reverse

/-- The full per-label normalization of lines 304-306, in the order the
code applies it: first remove digits, then remove dot-percent matches,
then strip surrounding whitespace. -/
def normalize (s : String) : String :=
  String.mk (pyStrip (subDotPct (stripDigits s.toList)))

/-- One step of building a Python set by successive insertion:
an element already present leaves the set unchanged. -/
def insertIfNew (acc : List String) (x : String) : List String :=
  if x ∈ acc then acc else acc ++ [x]

/-- Embedding of set(persons) (line 307) as the list of distinct elements.
CPython enumerates a set of strings in an order fixed by the interpreter
hash seed, constant within one server process; we model the enumeration
by first-insertion order. -/
def pySetList (l : List String) : List String := l.foldl insertIfNew []

/-- Embedding of the Python builtin max with a key function over a
non-empty sequence (line 307): scan the sequence keeping the current
best, replacing it only when a strictly larger key appears, so the first
element attaining the maximal key wins. -/
def pyMaxBy (key : String → Nat) (x : String) : List String → String
  | [] => x
  | y :: ys => pyMaxBy key (if key x < key y then y else x) ys

/-- The error conditions of the run, named as in the spec taxonomy.
unreadableInput: ValueError at line 267; invalidCropGeometry: ValueError
at line 259; inferError: an exception escaping FrameProcessor.process
inside the loop; truthAmbiguous: the ValueError numpy raises for the
truth value of a multi-element array at line 269; emptySession: the
ValueError the builtin max raises on an empty sequence at line 307. -/
inductive RunErr where
  | unreadableInput
  | invalidCropGeometry
  | inferError
  | truthAmbiguous
  | emptySession
  deriving DecidableEq

/-- Embedding of lines 303-307: normalize every recorded label, then take
max over the set of normalized labels with the occurrence count in the
normalized list as key.  On an empty session the builtin max raises; the
spec names that condition EmptySession. -/
def finalize (l : List String) : Except RunErr String :=
  match pySetList (l.map normalize) with
  | [] => .error .emptySession
  | x :: xs => .ok (pyMaxBy (fun z => (l.map normalize).count z) x xs)

/-- Outcome of one frame handed to FrameProcessor.process: either the
frame is processed and draw_detections records the given labels into the
global list (line 216), or process raises. -/
inductive FrameEv where
  | procOk (labels : List String)
  | procFail
  deriving DecidableEq

/-- The labels a frame event contributes to the global list. -/
def labelsOf : FrameEv → List String
  | .procOk ls => ls
  | .procFail => []

/-- Truthiness of input_crop at line 269.  input_crop is either None
(falsy) or a two-element numpy array built at line 257, whose truth
value numpy refuses to give: bool of a multi-element array raises
ValueError. -/
def pyTruthyCrop : Option (Int × Int) → Except RunErr Bool
  | none => .ok false
  | some _ => .error .truthAmbiguous

/-- Startup crop validation, lines 256-259: both dimensions positive
builds the numpy array; both exactly zero leaves input_crop as None;
anything else raises ValueError. -/
def validateCrop (w h : Int) : Except RunErr (Option (Int × Int)) :=
  if 0 < w ∧ 0 < h then .ok (some (w, h))
  else if ¬ (w = 0 ∧ h = 0) then .error .invalidCropGeometry
  else .ok none

/-- Result of the while loop of lines 262-301: how many frames were fully
processed, the labels recorded into the global list in order, and the
exception, if any, that aborted the loop. -/
structure LoopOut where
  processed : Nat
  recorded : List String
  err : Option RunErr
  deriving DecidableEq

/-- The while loop of lines 262-301.  Each iteration reads the next frame:
None (or an exhausted source) raises UnreadableInput when no frame was
processed yet and otherwise breaks out of the loop; a read frame first
meets the truthiness test of input_crop, then is processed, a processing
exception propagating out of the loop; a processed frame appends its
labels and increments the frame counter. -/
def runLoop (inputCrop : Option (Int × Int)) :
    List (Option FrameEv) → Nat → LoopOut
  | [], n => ⟨0, [], if n = 0 then some .unreadableInput else none⟩
  | none :: _, n => ⟨0, [], if n = 0 then some .unreadableInput else none⟩
  | some f :: rest, n =>
    match pyTruthyCrop inputCrop with
    | .error e => ⟨0, [], some e⟩
    | .ok _ =>
      match f with
      | .procFail => ⟨0, [], some .inferError⟩
      | .procOk ls =>
        let out := runLoop inputCrop rest (n + 1)
        ⟨out.processed + 1, ls ++ out.recorded, out.err⟩

/-- Outcome of one call to main: the returned label or the exception, and
the contents of the process-global list persons_detected afterwards. -/
structure RunOut where
  result : Except RunErr String
  globalPersons : List String

/-- End of a run, after the loop of main: the labels the loop recorded
have been appended to the global list; an exception escaping the loop
propagates, and otherwise line 307 computes the majority vote over the
whole global list. -/
def finishRun (g : List String) (out : LoopOut) : RunOut :=
  match out with
  | ⟨_, rec, some e⟩ => ⟨.error e, g ++ rec⟩
  | ⟨_, rec, none⟩ => ⟨finalize (g ++ rec), g ++ rec⟩

/-- Embedding of main (lines 241-308) for one run, threading the
process-global list persons_detected explicitly: validate the crop
arguments, run the frame loop which appends the recorded labels to the
global list, and on normal loop exit compute the majority vote over the
whole global list.  main never removes elements from the global list:
line 303 binds a local alias and the later rebindings of the local name
leave the global untouched. -/
def mainRun (w h : Int) (reads : List (Option FrameEv)) (g : List String) : RunOut :=
  match validateCrop w h with
  | .error e => ⟨.error e, g⟩
  | .ok ic => finishRun g (runLoop ic reads 0)

/-- argparse action store_true: the destination is the default when the
flag is absent and True when it is present. -/
def storeTrueArg (dflt : Bool) (present : Bool) : Bool :=
  if present then true else dflt

/-- The no_show argument (line 70): action store_true with default True. -/
def argsNoShow (present : Bool) : Bool := storeTrueArg true present

/-- The allow_grow argument (line 84): action store_true with the usual
default False. -/
def argsAllowGrow (present : Bool) : Bool := storeTrueArg false present

/-- Line 138: self.allow_grow is args.allow_grow and not args.no_show. -/
def frameProcessorAllowGrow (allowGrowPresent noShowPresent : Bool) : Bool :=
  argsAllowGrow allowGrowPresent && !(argsNoShow noShowPresent)

/-- The gallery after FrameProcessor.process (lines 185-196): the growth
branch runs only when allow_grow is set and some detection is unknown;
saved abstracts whatever entries the branch would append through
dump_faces. -/
def processGalleryAfter (allowGrow : Bool) (unknowns : List Nat)
    (gallery saved : List String) : List String :=
  if allowGrow && decide (0 < unknowns.length) then gallery ++ saved else gallery

/-! Helper lemmas about the embedded operations. -/

lemma mainRun_err (w h : Int) (reads : List (Option FrameEv)) (g : List String)
    (e : RunErr) (hv : validateCrop w h = .error e) :
    mainRun w h reads g = ⟨.error e, g⟩ := by
  unfold mainRun
  rw [hv]

lemma mainRun_ok (w h : Int) (reads : List (Option FrameEv)) (g : List String)
    (ic : Option (Int × Int)) (hv : validateCrop w h = .ok ic) :
    mainRun w h reads g = finishRun g (runLoop ic reads 0) := by
  unfold mainRun
  rw [hv]

lemma finishRun_some (g : List String) (p : Nat) (rec : List String) (e : RunErr) :
    finishRun g ⟨p, rec, some e⟩ = ⟨.error e, g ++ rec⟩ := rfl

lemma finishRun_none (g : List String) (p : Nat) (rec : List String) :
    finishRun g ⟨p, rec, none⟩ = ⟨finalize (g ++ rec), g ++ rec⟩ := rfl

lemma mem_foldl_insertIfNew (x : String) :
    ∀ (l acc : List String), x ∈ l.foldl insertIfNew acc ↔ x ∈ acc ∨ x ∈ l := by
  intro l
  induction l with
  | nil => intro acc; simp
  | cons y ys ih =>
    intro acc
    rw [List.foldl_cons, ih]
    constructor
    · rintro (hx | hx)
      · unfold insertIfNew at hx
        by_cases hy : y ∈ acc
        · rw [if_pos hy] at hx; exact Or.inl hx
        · rw [if_neg hy] at hx
          rcases List.mem_append.mp hx with h | h
          · exact Or.inl h
          · rw [List.mem_singleton] at h
            exact Or.inr (h ▸ List.mem_cons_self y ys)
      · exact Or.inr (List.mem_cons_of_mem _ hx)
    · rintro (hx | hx)
      · left
        unfold insertIfNew
        by_cases hy : y ∈ acc
        · rw [if_pos hy]; exact hx
        · rw [if_neg hy]; exact List.mem_append.mpr (Or.inl hx)
      · rcases List.mem_cons.mp hx with h | h
        · left
          unfold insertIfNew
          by_cases hy : y ∈ acc
          · rw [if_pos hy]; exact h ▸ hy
          · rw [if_neg hy]
            exact List.mem_append.mpr (Or.inr (List.mem_singleton.mpr h))
        · exact Or.inr h

lemma mem_pySetList (x : String) (l : List String) : x ∈ pySetList l ↔ x ∈ l := by
  unfold pySetList
  rw [mem_foldl_insertIfNew]
  simp

lemma pySetList_eq_nil (l : List String) (h : pySetList l = []) : l = [] := by
  cases l with
  | nil => rfl
  | cons a t =>
    exfalso
    have ha : a ∈ pySetList (a :: t) := (mem_pySetList _ _).mpr (List.mem_cons_self _ _)
    rw [h] at ha
    exact List.not_mem_nil a ha

lemma pyMaxBy_le (key : String → Nat) :
    ∀ (xs : List String) (x z : String), z ∈ x :: xs → key z ≤ key (pyMaxBy key x xs) := by
  intro xs
  induction xs with
  | nil =>
    intro x z hz
    rw [List.mem_singleton] at hz
    subst hz
    exact Nat.le_refl _
  | cons y ys ih =>
    intro x z hz
    show key z ≤ key (pyMaxBy key (if key x < key y then y else x) ys)
    by_cases hxy : key x < key y
    · rw [if_pos hxy]
      rcases List.mem_cons.mp hz with h | h
      · subst h
        exact Nat.le_trans (Nat.le_of_lt hxy) (ih y y (List.mem_cons_self _ _))
      · exact ih y z h
    · rw [if_neg hxy]
      rcases List.mem_cons.mp hz with h | h
      · subst h
        exact ih z z (List.mem_cons_self _ _)
      · rcases List.mem_cons.mp h with h2 | h2
        · subst h2
          exact Nat.le_trans (Nat.le_of_not_lt hxy) (ih x x (List.mem_cons_self _ _))
        · exact ih x z (List.mem_cons_of_mem _ h2)

lemma pyMaxBy_stays (key : String → Nat) :
    ∀ (ys : List String) (x : String), (∀ w ∈ ys, key w ≤ key x) →
      pyMaxBy key x ys = x := by
  intro ys
  induction ys with
  | nil => intro x _; rfl
  | cons y ys ih =>
    intro x h
    show pyMaxBy key (if key x < key y then y else x) ys = x
    rw [if_neg (Nat.not_lt.mpr (h y (List.mem_cons_self _ _)))]
    exact ih x (fun w hw => h w (List.mem_cons_of_mem _ hw))

lemma join_labels_nil :
    ∀ fs : List FrameEv, (∀ f ∈ fs, f = .procOk []) → (fs.map labelsOf).flatten = [] := by
  intro fs
  induction fs with
  | nil => intro _; rfl
  | cons f fs ih =>
    intro h
    have hf := h f (List.mem_cons_self _ _)
    subst hf
    have := ih (fun f hf => h f (List.mem_cons_of_mem _ hf))
    simp [labelsOf, this]

lemma runLoop_ok_frames :
    ∀ (fs : List FrameEv) (n : Nat), (∀ f ∈ fs, f ≠ .procFail) →
      runLoop none (fs.map some) (n + 1) = ⟨fs.length, (fs.map labelsOf).flatten, none⟩ := by
  intro fs
  induction fs with
  | nil => intro n _; simp [runLoop]
  | cons f fs ih =>
    intro n h
    cases f with
    | procFail => exact absurd rfl (h _ (List.mem_cons_self _ _))
    | procOk ls =>
      have hrest : ∀ f ∈ fs, f ≠ FrameEv.procFail :=
        fun f hf => h f (List.mem_cons_of_mem _ hf)
      simp only [List.map_cons, runLoop, pyTruthyCrop]
      rw [ih (n + 1) hrest]
      simp [labelsOf]

lemma runLoop_fail_after :
    ∀ (fs : List FrameEv) (rest : List (Option FrameEv)) (n : Nat),
      (∀ f ∈ fs, f ≠ .procFail) →
      runLoop none (fs.map some ++ some .procFail :: rest) n =
        ⟨fs.length, (fs.map labelsOf).flatten, some .inferError⟩ := by
  intro fs
  induction fs with
  | nil => intro rest n _; simp [runLoop, pyTruthyCrop]
  | cons f fs ih =>
    intro rest n h
    cases f with
    | procFail => exact absurd rfl (h _ (List.mem_cons_self _ _))
    | procOk ls =>
      have hrest : ∀ f ∈ fs, f ≠ FrameEv.procFail :=
        fun f hf => h f (List.mem_cons_of_mem _ hf)
      rw [List.map_cons, List.cons_append]
      simp only [runLoop, pyTruthyCrop]
      rw [ih rest (n + 1) hrest]
      simp [labelsOf]

lemma find?_cons_true (p : String → Bool) (a : String) (l : List String)
    (h : p a = true) : (a :: l).find? p = some a := by
  simp [List.find?, h]

lemma find?_cons_false (p : String → Bool) (a : String) (l : List String)
    (h : p a = false) : (a :: l).find? p = l.find? p := by
  simp [List.find?, h]

lemma find?_congr (p q : String → Bool) :
    ∀ l : List String, (∀ a ∈ l, p a = q a) → l.find? p = l.find? q := by
  intro l
  induction l with
  | nil => intro _; rfl
  | cons a t ih =>
    intro h
    have ha : p a = q a := h a (List.mem_cons_self _ _)
    have hrest := ih (fun b hb => h b (List.mem_cons_of_mem _ hb))
    cases hq : q a with
    | true => rw [find?_cons_true p a t (ha.trans hq), find?_cons_true q a t hq]
    | false => rw [find?_cons_false p a t (ha.trans hq), find?_cons_false q a t hq, hrest]

lemma pyMaxBy_first_max (key : String → Nat) :
    ∀ (xs : List String) (x : String),
      (x :: xs).find? (fun z => (x :: xs).all (fun w => decide (key w ≤ key z)))
        = some (pyMaxBy key x xs) := by
  intro xs
  induction xs with
  | nil =>
    intro x
    have hx : (([x] : List String).all (fun w => decide (key w ≤ key x))) = true := by simp
    rw [find?_cons_true (fun z => ([x] : List String).all (fun w => decide (key w ≤ key z)))
      x [] hx]
    rfl
  | cons y ys ih =>
    intro x
    show (x :: y :: ys).find? (fun z => (x :: y :: ys).all (fun w => decide (key w ≤ key z)))
        = some (pyMaxBy key (if key x < key y then y else x) ys)
    by_cases hxy : key x < key y
    · rw [if_pos hxy]
      have hPx : ((x :: y :: ys).all (fun w => decide (key w ≤ key x))) = false := by
        cases hb : ((x :: y :: ys).all (fun w => decide (key w ≤ key x))) with
        | false => rfl
        | true =>
          exfalso
          have := of_decide_eq_true (List.all_eq_true.mp hb y
            (List.mem_cons_of_mem _ (List.mem_cons_self _ _)))
          omega
      rw [find?_cons_false (fun z => (x :: y :: ys).all (fun w => decide (key w ≤ key z)))
        x (y :: ys) hPx]
      have hcongr : ∀ z ∈ y :: ys,
          ((x :: y :: ys).all (fun w => decide (key w ≤ key z)))
            = ((y :: ys).all (fun w => decide (key w ≤ key z))) := by
        intro z hz
        cases hsmall : (y :: ys).all (fun w => decide (key w ≤ key z)) with
        | true =>
          have hyz : key y ≤ key z :=
            of_decide_eq_true (List.all_eq_true.mp hsmall y (List.mem_cons_self _ _))
          have hbig : (x :: y :: ys).all (fun w => decide (key w ≤ key z)) = true := by
            rw [List.all_eq_true]
            intro w hw
            rcases List.mem_cons.mp hw with hwx | hwrest
            · subst hwx; exact decide_eq_true (by omega)
            · exact List.all_eq_true.mp hsmall w hwrest
          rw [hbig]
        | false =>
          have hbig : (x :: y :: ys).all (fun w => decide (key w ≤ key z)) = false := by
            cases hb : (x :: y :: ys).all (fun w => decide (key w ≤ key z)) with
            | false => rfl
            | true =>
              exfalso
              have hsm : (y :: ys).all (fun w => decide (key w ≤ key z)) = true := by
                rw [List.all_eq_true]
                intro w hw
                exact List.all_eq_true.mp hb w (List.mem_cons_of_mem _ hw)
              rw [hsmall] at hsm
              exact Bool.false_ne_true hsm
          rw [hbig]
      rw [find?_congr (fun z => (x :: y :: ys).all (fun w => decide (key w ≤ key z)))
        (fun z => (y :: ys).all (fun w => decide (key w ≤ key z))) (y :: ys) hcongr]
      exact ih y
    · rw [if_neg hxy]
      have hyx : key y ≤ key x := Nat.le_of_not_lt hxy
      cases hPx : ((x :: y :: ys).all (fun w => decide (key w ≤ key x))) with
      | true =>
        rw [find?_cons_true (fun z => (x :: y :: ys).all (fun w => decide (key w ≤ key z)))
          x (y :: ys) hPx]
        have hmax : ∀ w ∈ x :: y :: ys, key w ≤ key x :=
          fun w hw => of_decide_eq_true (List.all_eq_true.mp hPx w hw)
        rw [pyMaxBy_stays key ys x (fun w hw => hmax w
          (List.mem_cons_of_mem _ (List.mem_cons_of_mem _ hw)))]
      | false =>
        rw [find?_cons_false (fun z => (x :: y :: ys).all (fun w => decide (key w ≤ key z)))
          x (y :: ys) hPx]
        have hPy : ((x :: y :: ys).all (fun w => decide (key w ≤ key y))) = false := by
          cases hb : ((x :: y :: ys).all (fun w => decide (key w ≤ key y))) with
          | false => rfl
          | true =>
            exfalso
            have h1 : key x ≤ key y :=
              of_decide_eq_true (List.all_eq_true.mp hb x (List.mem_cons_self _ _))
            have hcontr : ((x :: y :: ys).all (fun w => decide (key w ≤ key x))) = true := by
              rw [List.all_eq_true]
              intro w hw
              have hwy := of_decide_eq_true (List.all_eq_true.mp hb w hw)
              exact decide_eq_true (by omega)
            rw [hPx] at hcontr
            exact Bool.false_ne_true hcontr
        rw [find?_cons_false (fun z => (x :: y :: ys).all (fun w => decide (key w ≤ key z)))
          y ys hPy]
        have hQx : ((x :: ys).all (fun w => decide (key w ≤ key x))) = false := by
          cases hb : ((x :: ys).all (fun w => decide (key w ≤ key x))) with
          | false => rfl
          | true =>
            exfalso
            have hcontr : ((x :: y :: ys).all (fun w => decide (key w ≤ key x))) = true := by
              rw [List.all_eq_true]
              intro w hw
              rcases List.mem_cons.mp hw with hwx | hw2
              · subst hwx; exact decide_eq_true (Nat.le_refl _)
              · rcases List.mem_cons.mp hw2 with hwy | hw3
                · subst hwy; exact decide_eq_true hyx
                · exact List.all_eq_true.mp hb w (List.mem_cons_of_mem _ hw3)
            rw [hPx] at hcontr
            exact Bool.false_ne_true hcontr
        have hIH := ih x
        rw [find?_cons_false (fun z => (x :: ys).all (fun w => decide (key w ≤ key z)))
          x ys hQx] at hIH
        have hcongr : ∀ z ∈ ys,
            ((x :: y :: ys).all (fun w => decide (key w ≤ key z)))
              = ((x :: ys).all (fun w => decide (key w ≤ key z))) := by
          intro z hz
          cases hq : ((x :: ys).all (fun w => decide (key w ≤ key z))) with
          | true =>
            have hxz : key x ≤ key z :=
              of_decide_eq_true (List.all_eq_true.mp hq x (List.mem_cons_self _ _))
            have hbig : ((x :: y :: ys).all (fun w => decide (key w ≤ key z))) = true := by
              rw [List.all_eq_true]
              intro w hw
              rcases List.mem_cons.mp hw with hwx | hw2
              · subst hwx; exact decide_eq_true hxz
              · rcases List.mem_cons.mp hw2 with hwy | hw3
                · subst hwy; exact decide_eq_true (by omega)
                · exact List.all_eq_true.mp hq w (List.mem_cons_of_mem _ hw3)
            rw [hbig]
          | false =>
            have hbig : ((x :: y :: ys).all (fun w => decide (key w ≤ key z))) = false := by
              cases hb : ((x :: y :: ys).all (fun w => decide (key w ≤ key z))) with
              | false => rfl
              | true =>
                exfalso
                have hcontr : ((x :: ys).all (fun w => decide (key w ≤ key z))) = true := by
                  rw [List.all_eq_true]
                  intro w hw
                  rcases List.mem_cons.mp hw with hwx | hw3
                  · subst hwx
                    exact List.all_eq_true.mp hb w (List.mem_cons_self _ _)
                  · exact List.all_eq_true.mp hb w
                      (List.mem_cons_of_mem _ (List.mem_cons_of_mem _ hw3))
                rw [hq] at hcontr
                exact Bool.false_ne_true hcontr
            rw [hbig]
        rw [find?_congr (fun z => (x :: y :: ys).all (fun w => decide (key w ≤ key z)))
          (fun z => (x :: ys).all (fun w => decide (key w ≤ key z))) ys hcongr]
        exact hIH

/-! Claim theorems. -/

/-- C1 (counterexample): the claim states that both of the strings
Bob 99.50 percent and Bob (spaces) 12.00 (space) percent normalize to
exactly Bob.  It is false: on the second string the digit stripping
leaves Bob, three spaces, a dot, a space and the percent sign; the
dot-percent substitution then consumes the space before the percent sign
and leaves the interior dot and spaces, and strip removes no interior
characters, so the result is Bob followed by three spaces and a dot. -/
theorem normalize_examples_cex :
    ¬ (normalize "Bob 99.50%" = "Bob" ∧ normalize "Bob   12.00 %" = "Bob") := by
  intro h
  exact absurd h.2 (by decide)

/-- C1 (amended): the first string normalizes to Bob, but the second
normalizes to Bob followed by three spaces and a dot, a different key,
so the aggregator counts the two variants separately. -/
theorem normalize_examples_amended :
    normalize "Bob 99.50%" = "Bob" ∧ normalize "Bob   12.00 %" = "Bob   ." ∧
      pySetList ((["Bob 99.50%", "Bob   12.00 %"]).map normalize) = ["Bob", "Bob   ."] :=
  ⟨rfl, rfl, rfl⟩

/-- C2: for every non-empty session, finalize succeeds and returns a
label whose occurrence count among the normalized recorded labels is
maximal; in particular on the records Alice, Alice, Bob it returns
Alice. -/
theorem finalize_majority :
    (∀ l : List String, l ≠ [] →
      ∃ x, finalize l = .ok x ∧
        ∀ y ∈ l.map normalize, (l.map normalize).count y ≤ (l.map normalize).count x) ∧
    finalize ["Alice", "Alice", "Bob"] = .ok "Alice" := by
  refine ⟨?_, rfl⟩
  intro l hl
  have hns : l.map normalize ≠ [] := by
    intro hmap
    exact hl (List.map_eq_nil_iff.mp hmap)
  cases hd : pySetList (l.map normalize) with
  | nil => exact absurd (pySetList_eq_nil _ hd) hns
  | cons x xs =>
    refine ⟨pyMaxBy (fun z => (l.map normalize).count z) x xs, ?_, ?_⟩
    · unfold finalize
      rw [hd]
    · intro y hy
      have hmem : y ∈ pySetList (l.map normalize) := (mem_pySetList _ _).mpr hy
      rw [hd] at hmem
      exact pyMaxBy_le (fun z => (l.map normalize).count z) xs x y hmem

/-- C2 (witness): the general statement instantiated at the session
Alice, Alice, Bob. -/
theorem finalize_majority_witness :
    ∃ x, finalize ["Alice", "Alice", "Bob"] = .ok x ∧
      ∀ y ∈ (["Alice", "Alice", "Bob"] : List String).map normalize,
        ((["Alice", "Alice", "Bob"] : List String).map normalize).count y ≤
          ((["Alice", "Alice", "Bob"] : List String).map normalize).count x :=
  finalize_majority.1 ["Alice", "Alice", "Bob"] (by decide)

/-- C3: a run in which no labels are ever recorded makes finalize raise:
the builtin max fails on the empty set, the EmptySession condition of the
spec; no default label is silently returned.  The conjunct on mainRun
shows the whole run with frames but no detections ending in that error
with the label list still empty. -/
theorem finalize_empty_session :
    finalize [] = .error .emptySession ∧
    ∀ fs : List FrameEv, fs ≠ [] → (∀ f ∈ fs, f = .procOk []) →
      mainRun 0 0 (fs.map some) [] = ⟨.error .emptySession, []⟩ := by
  refine ⟨rfl, ?_⟩
  intro fs hne hall
  cases fs with
  | nil => exact absurd rfl hne
  | cons f fs' =>
    have hf := hall f (List.mem_cons_self _ _)
    subst hf
    have hrest : ∀ f ∈ fs', f = FrameEv.procOk [] :=
      fun f hf => hall f (List.mem_cons_of_mem _ hf)
    have hok : ∀ f ∈ fs', f ≠ FrameEv.procFail := by
      intro f hf hcontr
      rw [hrest f hf] at hcontr
      exact FrameEv.noConfusion hcontr
    have hl : runLoop none ((FrameEv.procOk [] :: fs').map some) 0 =
        ⟨fs'.length + 1, [] ++ (fs'.map labelsOf).flatten, none⟩ := by
      rw [List.map_cons]
      simp only [runLoop, pyTruthyCrop]
      rw [runLoop_ok_frames fs' 0 hok]
    rw [mainRun_ok 0 0 _ [] none rfl, hl, finishRun_none, join_labels_nil fs' hrest]
    rfl

/-- C3 (witness): the mainRun conjunct instantiated at a single processed
frame with no detections. -/
theorem finalize_empty_session_witness :
    mainRun 0 0 ([FrameEv.procOk []].map some) [] = ⟨.error .emptySession, []⟩ :=
  finalize_empty_session.2 [.procOk []] (by decide) (by decide)

/-- C4 (counterexample): the claim states the tally is destroyed when the
majority label is extracted, so a later run starts from an empty session.
It is false: after a first run that recorded Bob twice the global list
still holds both entries, and a second run recording only Alice finalizes
to Bob, while the same second run from an empty session finalizes to
Alice. -/
theorem tally_persists_cex :
    (mainRun 0 0 [some (.procOk ["Bob"]), some (.procOk ["Bob"])] []).globalPersons
        = ["Bob", "Bob"] ∧
    (mainRun 0 0 [some (.procOk ["Alice"])] ["Bob", "Bob"]).result = .ok "Bob" ∧
    (mainRun 0 0 [some (.procOk ["Alice"])] []).result = .ok "Alice" :=
  ⟨rfl, rfl, rfl⟩

/-- C4 (amended): the tally is the process-global list persons_detected
and is never destroyed: line 303 only binds a local alias, so every run
appends its recorded labels to the global list and finalize votes over
the whole accumulated list; a later run therefore starts from the labels
of all earlier runs. -/
theorem tally_persists :
    ∀ (w h : Int) (reads : List (Option FrameEv)) (g : List String),
      ∃ suffix : List String, (mainRun w h reads g).globalPersons = g ++ suffix := by
  intro w h reads g
  cases hv : validateCrop w h with
  | error e =>
    rw [mainRun_err w h reads g e hv]
    exact ⟨[], (List.append_nil g).symm⟩
  | ok ic =>
    rw [mainRun_ok w h reads g ic hv]
    cases hout : runLoop ic reads 0 with
    | mk p rec err =>
      cases err with
      | some e => rw [finishRun_some]; exact ⟨rec, rfl⟩
      | none => rw [finishRun_none]; exact ⟨rec, rfl⟩

/-- C5 (counterexample): the claim states that a processing failure on a
frame after the first only drops that frame and the loop continues with
later frames.  It is false: with a first frame recording Alice, a second
frame whose processing raises, and a third frame recording Bob, the run
aborts with the inference error and Bob is never recorded. -/
theorem frame_failure_cex :
    (mainRun 0 0 [some (.procOk ["Alice"]), some .procFail, some (.procOk ["Bob"])]
        []).result = .error .inferError ∧
    "Bob" ∉ (mainRun 0 0 [some (.procOk ["Alice"]), some .procFail, some (.procOk ["Bob"])]
        []).globalPersons := by
  exact ⟨rfl, by decide⟩

/-- C5 (amended): a failure while processing any frame is fatal to the
whole run: the exception propagates out of the loop, no later frame is
read, and only the labels of the frames before the failure are
recorded. -/
theorem frame_failure_fatal :
    ∀ (fs : List FrameEv) (rest : List (Option FrameEv)) (g : List String),
      (∀ f ∈ fs, f ≠ .procFail) →
      mainRun 0 0 (fs.map some ++ some .procFail :: rest) g =
        ⟨.error .inferError, g ++ (fs.map labelsOf).flatten⟩ := by
  intro fs rest g h
  rw [mainRun_ok 0 0 _ g none rfl, runLoop_fail_after fs rest 0 h, finishRun_some]

/-- C5 (amended, witness): one clean frame recording Alice, then a
failing frame, then a further readable frame recording Bob; the run
aborts with only Alice recorded. -/
theorem frame_failure_fatal_witness :
    mainRun 0 0 ([FrameEv.procOk ["Alice"]].map some ++
        some .procFail :: [some (.procOk ["Bob"])]) [] =
      ⟨.error .inferError, [] ++ ([FrameEv.procOk ["Alice"]].map labelsOf).flatten⟩ :=
  frame_failure_fatal [.procOk ["Alice"]] [some (.procOk ["Bob"])] [] (by decide)

/-- C6: when the very first read yields no frame (or the source is empty)
the run fails with the fatal UnreadableInput error, and when the input
ends after at least one frame was processed the loop terminates without
error. -/
theorem first_frame_unreadable :
    (∀ (rest : List (Option FrameEv)) (g : List String),
        mainRun 0 0 (none :: rest) g = ⟨.error .unreadableInput, g⟩) ∧
    (∀ g : List String, mainRun 0 0 [] g = ⟨.error .unreadableInput, g⟩) ∧
    (∀ fs : List FrameEv, fs ≠ [] → (∀ f ∈ fs, f ≠ .procFail) →
        (runLoop none (fs.map some) 0).err = none) := by
  refine ⟨?_, ?_, ?_⟩
  · intro rest g
    have hl : runLoop none (none :: rest) 0 = ⟨0, [], some .unreadableInput⟩ := rfl
    rw [mainRun_ok 0 0 _ g none rfl, hl, finishRun_some, List.append_nil]
  · intro g
    have hl : runLoop none ([] : List (Option FrameEv)) 0 =
        ⟨0, [], some .unreadableInput⟩ := rfl
    rw [mainRun_ok 0 0 _ g none rfl, hl, finishRun_some, List.append_nil]
  · intro fs hne hok
    cases fs with
    | nil => exact absurd rfl hne
    | cons f fs' =>
      cases f with
      | procFail => exact absurd rfl (hok _ (List.mem_cons_self _ _))
      | procOk ls =>
        have hrest : ∀ f ∈ fs', f ≠ FrameEv.procFail :=
          fun f hf => hok f (List.mem_cons_of_mem _ hf)
        rw [List.map_cons]
        simp only [runLoop, pyTruthyCrop]
        rw [runLoop_ok_frames fs' 0 hrest]

/-- C6 (witness): the unreadable-first-frame conjunct at an empty rest
and empty global list, and the normal-termination conjunct at a single
clean frame. -/
theorem first_frame_unreadable_witness :
    mainRun 0 0 [none] [] = ⟨.error .unreadableInput, []⟩ ∧
    (runLoop none ([FrameEv.procOk ["Alice"]].map some) 0).err = none :=
  ⟨first_frame_unreadable.1 [] [],
   first_frame_unreadable.2.2 [.procOk ["Alice"]] (by decide) (by decide)⟩

/-- C7: a crop size that is non-positive in exactly one dimension is
rejected at startup with the fatal InvalidCropGeometry error before any
frame is read, leaving the global list untouched; the crop size zero,
zero is accepted and leaves input_crop as None, meaning no cropping. -/
theorem crop_validation :
    (∀ (w h : Int) (reads : List (Option FrameEv)) (g : List String),
        ((w ≤ 0 ∧ 0 < h) ∨ (0 < w ∧ h ≤ 0)) →
        mainRun w h reads g = ⟨.error .invalidCropGeometry, g⟩) ∧
    validateCrop 0 0 = .ok none ∧ pyTruthyCrop none = .ok false := by
  refine ⟨?_, rfl, rfl⟩
  intro w h reads g hwh
  have hc1 : ¬ (0 < w ∧ 0 < h) := by
    rcases hwh with ⟨hw, hh⟩ | ⟨hw, hh⟩ <;> omega
  have hc2 : ¬ (w = 0 ∧ h = 0) := by
    rcases hwh with ⟨hw, hh⟩ | ⟨hw, hh⟩ <;> omega
  have hv : validateCrop w h = .error .invalidCropGeometry := by
    unfold validateCrop
    rw [if_neg hc1, if_pos hc2]
  exact mainRun_err w h reads g _ hv

/-- C7 (witness): the rejection conjunct at the crop size zero, five of
the spec example. -/
theorem crop_validation_witness :
    mainRun 0 5 [] [] = ⟨.error .invalidCropGeometry, []⟩ ∧
    validateCrop 0 0 = .ok none :=
  ⟨crop_validation.1 0 5 [] [] (Or.inl (by decide)), crop_validation.2.1⟩

/-- C9: when both crop dimensions are positive, the truthiness test of
the two-element numpy crop array at the top of the loop raises on the
first read frame, so the run aborts with that error, no frame is ever
processed and no label recorded, whatever the input holds. -/
theorem crop_truthiness_aborts :
    ∀ (w h : Int) (f : FrameEv) (rest : List (Option FrameEv)) (g : List String),
      0 < w → 0 < h →
      mainRun w h (some f :: rest) g = ⟨.error .truthAmbiguous, g⟩ ∧
      (∀ (reads : List (Option FrameEv)) (n : Nat),
        (runLoop (some (w, h)) reads n).processed = 0 ∧
        (runLoop (some (w, h)) reads n).recorded = []) := by
  intro w h f rest g hw hh
  have hv : validateCrop w h = .ok (some (w, h)) := by
    unfold validateCrop
    rw [if_pos ⟨hw, hh⟩]
  constructor
  · have hl : runLoop (some (w, h)) (some f :: rest) 0 =
        ⟨0, [], some .truthAmbiguous⟩ := rfl
    rw [mainRun_ok w h _ g (some (w, h)) hv, hl, finishRun_some, List.append_nil]
  · intro reads n
    cases reads with
    | nil => exact ⟨rfl, rfl⟩
    | cons o rest' =>
      cases o with
      | none => exact ⟨rfl, rfl⟩
      | some f' => exact ⟨rfl, rfl⟩

/-- C9 (witness): the statement at crop size two by two, a readable first
frame that would have recorded Alice, and an empty global list. -/
theorem crop_truthiness_aborts_witness :
    mainRun 2 2 [some (FrameEv.procOk ["Alice"])] [] = ⟨.error .truthAmbiguous, []⟩ ∧
    (∀ (reads : List (Option FrameEv)) (n : Nat),
      (runLoop (some ((2 : Int), (2 : Int))) reads n).processed = 0 ∧
      (runLoop (some ((2 : Int), (2 : Int))) reads n).recorded = []) := by
  have h := crop_truthiness_aborts 2 2 (.procOk ["Alice"]) [] [] (by decide) (by decide)
  exact ⟨h.1, h.2⟩

/-- C10: args.no_show is True whether or not the flag is passed, since
store_true with default True yields True in both cases; hence
FrameProcessor computes allow_grow as False for every combination of the
two flags, the growth branch in process is never taken, and the gallery
after process is exactly the gallery before, whatever the unknowns. -/
theorem gallery_never_grows :
    ∀ (allowGrowPresent noShowPresent : Bool) (unknowns : List Nat)
      (gallery saved : List String),
      frameProcessorAllowGrow allowGrowPresent noShowPresent = false ∧
      processGalleryAfter (frameProcessorAllowGrow allowGrowPresent noShowPresent)
          unknowns gallery saved = gallery := by
  intro agp nsp unknowns gallery saved
  have hfalse : frameProcessorAllowGrow agp nsp = false := by
    cases agp <;> cases nsp <;> rfl
  refine ⟨hfalse, ?_⟩
  rw [hfalse]
  simp [processGalleryAfter]

/-- C8: finalize is a pure function of the recorded label sequence, so
two runs recording the same sequence finalize to the same label; this
theorem pins down the selection: the result is always the first label, in
the set enumeration order of the model, whose occurrence count among the
normalized labels is maximal — in particular the choice among tied labels
is deterministic for a given input order.  The builtin max keeps the
current best on key ties and replaces it only on a strictly larger key,
which is what the first-maximizer characterization captures. -/
theorem tie_break_first :
    ∀ l : List String, l ≠ [] →
      ∃ x, finalize l = .ok x ∧
        (pySetList (l.map normalize)).find?
          (fun z => (pySetList (l.map normalize)).all
            (fun w => decide ((l.map normalize).count w ≤ (l.map normalize).count z)))
          = some x := by
  intro l hl
  have hns : l.map normalize ≠ [] := by
    intro hmap
    exact hl (List.map_eq_nil_iff.mp hmap)
  cases hd : pySetList (l.map normalize) with
  | nil => exact absurd (pySetList_eq_nil _ hd) hns
  | cons x xs =>
    refine ⟨pyMaxBy (fun z => (l.map normalize).count z) x xs, ?_, ?_⟩
    · unfold finalize
      rw [hd]
    · exact pyMaxBy_first_max (fun z => (l.map normalize).count z) xs x

/-- C8 (witness): the characterization at the tied session Alice, Bob:
both normalized labels occur once and the selection is the first of the
two in enumeration order. -/
theorem tie_break_first_witness :
    ∃ x, finalize ["Alice", "Bob"] = .ok x ∧
      (pySetList ((["Alice", "Bob"] : List String).map normalize)).find?
        (fun z => (pySetList ((["Alice", "Bob"] : List String).map normalize)).all
          (fun w => decide (((["Alice", "Bob"] : List String).map normalize).count w ≤
            ((["Alice", "Bob"] : List String).map normalize).count z)))
        = some x :=
  tie_break_first ["Alice", "Bob"] (by decide)

end FaceRecDemo
